import Mathlib

/-!
Verification of the ts-parsec lexer / parser-combinator library.

The definitions below are a shallow embedding of the TypeScript sources:
  * `src/src/lex.ts`   — `SourcePosition`, `ParseFailure`/`ParseFailures`,
    `Lexer.next`, `Lexer.allTokens`, `RuleSet` (quoted-string part);
  * `src/src/parse.ts` — the parser-combinator layer (`Parser.parse` is a
    function from a lexer state to a result; exceptions become an explicit
    error case carrying the mutated cursor).

JavaScript strings are embedded as `List Char`; the regex-based dynamic
guard of a `RuleSet` is embedded as an abstract matching function (a regex
denotes its matcher); object/Map iteration uses insertion order, embedded
as association lists.
-/

set_option maxHeartbeats 1000000

namespace TsParsec

/-! ## JavaScript string primitives used by the source -/

/-- `rest.startsWith(pre)` on JS strings (embedded as char lists). -/
def listStartsWith : List Char → List Char → Bool
  | _, [] => true
  | [], _ :: _ => false
  | h :: hs, p :: ps => h = p && listStartsWith hs ps

/-- `hay.indexOf(needle) > -1` on JS strings: `needle` occurs somewhere in `hay`. -/
def strContains (hay needle : List Char) : Bool :=
  listStartsWith hay needle ||
    match hay with
    | [] => false
    | _ :: t => strContains t needle

/-- Spec-side reading of `listStartsWith`: `pre` is a prefix. -/
def IsStartOf (pre hay : List Char) : Prop := ∃ t, hay = pre ++ t

/-- Spec-side reading of `strContains`: `needle` occurs as a contiguous run in `hay`. -/
def OccursIn (needle hay : List Char) : Prop := ∃ s t, hay = s ++ needle ++ t

theorem listStartsWith_iff (hay pre : List Char) :
    listStartsWith hay pre = true ↔ IsStartOf pre hay := by
  induction pre generalizing hay with
  | nil => simp [listStartsWith, IsStartOf]
  | cons p ps ih =>
    cases hay with
    | nil =>
      simp only [listStartsWith, IsStartOf]
      constructor
      · intro h; cases h
      · rintro ⟨t, ht⟩; cases ht
    | cons h hs =>
      simp only [listStartsWith, Bool.and_eq_true, decide_eq_true_eq, ih, IsStartOf]
      constructor
      · rintro ⟨rfl, t, rfl⟩; exact ⟨t, rfl⟩
      · rintro ⟨t, ht⟩
        injection ht with h1 h2
        exact ⟨h1, t, h2⟩

theorem strContains_iff (hay needle : List Char) :
    strContains hay needle = true ↔ OccursIn needle hay := by
  induction hay with
  | nil =>
    simp only [strContains, listStartsWith_iff, Bool.or_eq_true, OccursIn, IsStartOf]
    constructor
    · rintro (⟨t, ht⟩ | h)
      · exact ⟨[], t, ht⟩
      · cases h
    · rintro ⟨s, t, hst⟩
      rcases List.append_eq_nil.mp hst.symm with ⟨hsn, ht⟩
      rcases List.append_eq_nil.mp hsn with ⟨hs, hn⟩
      exact Or.inl ⟨t, by simp [hn, ht]⟩
  | cons h hs ih =>
    simp only [strContains, Bool.or_eq_true, listStartsWith_iff, ih, IsStartOf, OccursIn]
    constructor
    · rintro (⟨t, ht⟩ | ⟨s, t, hst⟩)
      · exact ⟨[], t, ht⟩
      · exact ⟨h :: s, t, by simp [hst]⟩
    · rintro ⟨s, t, hst⟩
      cases s with
      | nil => exact Or.inl ⟨t, by simpa using hst⟩
      | cons s0 ss =>
        injection hst with h1 h2
        exact Or.inr ⟨ss, t, h2⟩

theorem OccursIn.length_le {needle hay : List Char} (h : OccursIn needle hay) :
    needle.length ≤ hay.length := by
  rcases h with ⟨s, t, rfl⟩
  simp only [List.length_append]
  omega

theorem OccursIn.refl (l : List Char) : OccursIn l l := ⟨[], [], by simp⟩

/-! ## SourcePosition (src/src/lex.ts, class `SourcePosition`) -/

/-- The four possible results of `SourcePosition.compareTo`. -/
inductive SPComparison where
  | forward | equal | behind | irrelevant
deriving DecidableEq, Repr

/-- A cursor over the source text.  `future` is the unconsumed suffix
(`sourceZipper.future`); `history` is unused in the source and omitted. -/
structure SourcePosition where
  name : String
  future : List Char
  line : Nat
  column : Nat
deriving DecidableEq, Repr

/-- `cleanCRLF`: the constructor strips every `\r`. -/
def cleanCRLF (s : List Char) : List Char := s.filter (fun c => c ≠ '\r')

/-- `new SourcePosition(source, name)`. -/
def SourcePosition.ofSource (source : List Char) (name : String) : SourcePosition :=
  ⟨name, cleanCRLF source, 1, 1⟩

/-- `SourcePosition._step` in the case where the cursor is not at EOF.
(The source throws `UnexpectedEOF` before mutating anything when at EOF;
call sites below only invoke `stepT` under a non-EOF guard, or model the
throw explicitly.)  A `\n` increments `line` and resets `column` to 1. -/
def stepT (sp : SourcePosition) : SourcePosition :=
  match sp.future with
  | [] => sp
  | c :: rest =>
    if c = '\n' then ⟨sp.name, rest, sp.line + 1, 1⟩
    else ⟨sp.name, rest, sp.line, sp.column + 1⟩

/-- `advance(n)` with the EOF throw ignored (total form used for positions
known to stay inside the input). -/
def advanceT (sp : SourcePosition) : Nat → SourcePosition
  | 0 => sp
  | n + 1 => advanceT (stepT sp) n

/-- `SourcePosition.compareTo(other)` (src/src/lex.ts lines 913-923):
equality of all four fields gives `equal`; otherwise containment of the
other's remaining text (JS `indexOf`) gives `behind`, the reverse
containment gives `forward`, and anything else is `irrelevant`. -/
def SourcePosition.compareTo (self other : SourcePosition) : SPComparison :=
  if self.future = other.future ∧ self.line = other.line ∧
      self.column = other.column ∧ self.name = other.name then
    .equal
  else if self.name = other.name ∧ strContains self.future other.future then
    .behind
  else if self.name = other.name ∧ strContains other.future self.future then
    .forward
  else
    .irrelevant

theorem stepT_future (sp : SourcePosition) : (stepT sp).future = sp.future.tail := by
  obtain ⟨n, f, l, c⟩ := sp
  cases f with
  | nil => rfl
  | cons c0 rest => by_cases h : c0 = '\n' <;> simp [stepT, h]

theorem stepT_name (sp : SourcePosition) : (stepT sp).name = sp.name := by
  obtain ⟨n, f, l, c⟩ := sp
  cases f with
  | nil => rfl
  | cons c0 rest => by_cases h : c0 = '\n' <;> simp [stepT, h]

theorem advanceT_future (sp : SourcePosition) (n : Nat) :
    (advanceT sp n).future = sp.future.drop n := by
  induction n generalizing sp with
  | zero => rfl
  | succ n ih =>
    rw [advanceT, ih, stepT_future]
    cases sp.future <;> simp

theorem advanceT_name (sp : SourcePosition) (n : Nat) :
    (advanceT sp n).name = sp.name := by
  induction n generalizing sp with
  | zero => rfl
  | succ n ih => rw [advanceT, ih, stepT_name]

/-- If `compareTo` answers `equal`, the two positions coincide. -/
theorem compareTo_eq_equal {a b : SourcePosition} :
    a.compareTo b = .equal → a = b := by
  unfold SourcePosition.compareTo
  split
  · rename_i h
    intro _
    obtain ⟨h1, h2, h3, h4⟩ := h
    cases a; cases b
    simp_all
  · split
    · intro h; cases h
    · split
      · intro h; cases h
      · intro h; cases h

theorem compareTo_self (a : SourcePosition) : a.compareTo a = .equal := by
  unfold SourcePosition.compareTo
  simp

/-- A proper suffix: `l = p ++ suf` for some non-empty `p`. -/
def ProperSuffixOf (suf l : List Char) : Prop := ∃ p, p ≠ [] ∧ l = p ++ suf

theorem ProperSuffixOf.occursIn {suf l : List Char} (h : ProperSuffixOf suf l) :
    OccursIn suf l := by
  rcases h with ⟨p, _, rfl⟩
  exact ⟨p, [], by simp⟩

theorem ProperSuffixOf.length_lt {suf l : List Char} (h : ProperSuffixOf suf l) :
    suf.length < l.length := by
  rcases h with ⟨p, hp, rfl⟩
  have : 0 < p.length := List.length_pos.mpr hp
  simp only [List.length_append]
  omega

/-- C4 (amended): with the forward/behind directions as the code has them.
If `other`'s remaining text is a proper suffix of `self`'s, `compareTo`
returns `behind`; in the symmetric case it returns `forward`; it returns
`equal` when name, remaining text, line and column all coincide, and
`irrelevant` for different source names or remaining texts neither of
which occurs inside the other. -/
theorem compareTo_suffix_directions (a b : SourcePosition) :
    (a.name = b.name → ProperSuffixOf b.future a.future →
        a.compareTo b = .behind)
    ∧ (a.name = b.name → ProperSuffixOf a.future b.future →
        a.compareTo b = .forward)
    ∧ (a.name = b.name → a.future = b.future → a.line = b.line → a.column = b.column →
        a.compareTo b = .equal)
    ∧ (a.name ≠ b.name → a.compareTo b = .irrelevant)
    ∧ (a.name = b.name → ¬ OccursIn b.future a.future → ¬ OccursIn a.future b.future →
        a.compareTo b = .irrelevant) := by
  refine ⟨?_, ?_, ?_, ?_, ?_⟩
  · intro hn hsuf
    have hne : a.future ≠ b.future := by
      intro he
      have hlt := hsuf.length_lt
      rw [he] at hlt
      exact lt_irrefl _ hlt
    unfold SourcePosition.compareTo
    rw [if_neg (by tauto), if_pos ⟨hn, (strContains_iff _ _).mpr hsuf.occursIn⟩]
  · intro hn hsuf
    have hne : a.future ≠ b.future := by
      intro he
      have hlt := hsuf.length_lt
      rw [he] at hlt
      exact lt_irrefl _ hlt
    have hnotb : ¬ strContains a.future b.future = true := by
      intro hc
      have := ((strContains_iff _ _).mp hc).length_le
      have := hsuf.length_lt
      omega
    unfold SourcePosition.compareTo
    rw [if_neg (by tauto), if_neg (by tauto),
      if_pos ⟨hn, (strContains_iff _ _).mpr hsuf.occursIn⟩]
  · intro hn hf hl hc
    unfold SourcePosition.compareTo
    rw [if_pos ⟨hf, hl, hc, hn⟩]
  · intro hn
    unfold SourcePosition.compareTo
    rw [if_neg (by tauto), if_neg (by tauto), if_neg (by tauto)]
  · intro hn h1 h2
    have hne : a.future ≠ b.future := by
      intro he
      exact h1 (by rw [he]; exact OccursIn.refl _)
    have hc1 : ¬ strContains a.future b.future = true := fun hc =>
      h1 ((strContains_iff _ _).mp hc)
    have hc2 : ¬ strContains b.future a.future = true := fun hc =>
      h2 ((strContains_iff _ _).mp hc)
    unfold SourcePosition.compareTo
    rw [if_neg (by tauto), if_neg (by tauto), if_neg (by tauto)]

/-- Concrete positions for the C4 counterexample and witness: same source
name, `other`'s remaining text a proper suffix of `self`'s. -/
def c4self : SourcePosition := ⟨"", ['a', 'b'], 1, 1⟩

def c4other : SourcePosition := ⟨"", ['b'], 1, 2⟩

/-- C4 (counterexample): the claim says `compareTo` returns `forward` when
the other position's remaining text is a proper suffix of self's (self
earlier, other further ahead) and `behind` in the symmetric case.  On the
code the directions are swapped: the earlier position answers `behind` and
the later one answers `forward`. -/
theorem compareTo_direction_counterexample :
    c4self.compareTo c4other = .behind ∧ c4other.compareTo c4self = .forward
      ∧ SPComparison.behind ≠ SPComparison.forward := by
  refine ⟨by decide, by decide, by decide⟩

/-- Witness for `compareTo_suffix_directions` at the concrete positions. -/
theorem compareTo_suffix_directions_witness :
    c4self.compareTo c4other = .behind ∧ c4other.compareTo c4self = .forward := by
  refine ⟨?_, ?_⟩
  · exact (compareTo_suffix_directions c4self c4other).1 rfl ⟨['a'], by decide, rfl⟩
  · exact (compareTo_suffix_directions c4other c4self).2.1 rfl ⟨['a'], by decide, rfl⟩

/-! ## ParseFailure and ParseFailures (src/src/lex.ts lines 34-87)

`ParseFailure` is the base error value; `ParseFailures` is the composite
subclass carrying a `pfs` list (its own `msg`/`sourceName`/`line`/`column`
fields are set to `'' '' 0 0` by its constructor but still exist and are
still mutated by `Parser.expect`).  `UnexpectedEOF` is a `ParseFailure`
with message `"unexpected end of file"` at position `0,0`. -/

inductive ParseFailure where
  | leaf (msg : String) (sourceName : String) (line : Nat) (column : Nat)
  | multi (msg : String) (sourceName : String) (line : Nat) (column : Nat)
      (pfs : List ParseFailure)

/-- `new UnexpectedEOF(sourceName)`. -/
def unexpectedEOF (sourceName : String) : ParseFailure :=
  .leaf "unexpected end of file" sourceName 0 0

/-- `x instanceof ParseFailures`. -/
def ParseFailure.isMulti : ParseFailure → Bool
  | .leaf .. => false
  | .multi .. => true

/-- The `pfs` field of a composite (`[]` for a base failure; only read on
composites in the source). -/
def ParseFailure.subFailures : ParseFailure → List ParseFailure
  | .leaf .. => []
  | .multi _ _ _ _ pfs => pfs

/-- `combine(...others)`.  On a base failure: `new ParseFailures(this, ...others)`
(the constructor stores the arguments as given, composites not flattened).
On a composite: push the non-composite others, then every composite
other's `pfs`, onto this composite's own list. -/
def ParseFailure.combine (self : ParseFailure) (others : List ParseFailure) : ParseFailure :=
  match self with
  | .leaf .. => .multi "" "" 0 0 (self :: others)
  | .multi m n l c pfs =>
      .multi m n l c
        (pfs ++ others.filter (fun x => !x.isMulti)
          ++ (others.filter (fun x => x.isMulti)).flatMap ParseFailure.subFailures)

/-- `e.msg = m` (mutation modelled as functional update). -/
def ParseFailure.setMsg : ParseFailure → String → ParseFailure
  | .leaf _ n l c, m => .leaf m n l c
  | .multi _ n l c pfs, m => .multi m n l c pfs

mutual

/-- The underlying (leaf) failures of a possibly-nested composite, in order. -/
def ParseFailure.leaves : ParseFailure → List ParseFailure
  | .leaf m n l c => [.leaf m n l c]
  | .multi _ _ _ _ pfs => leavesList pfs

/-- `leaves` mapped over a list, concatenated. -/
def leavesList : List ParseFailure → List ParseFailure
  | [] => []
  | p :: ps => p.leaves ++ leavesList ps

end

theorem leavesList_append (l1 l2 : List ParseFailure) :
    leavesList (l1 ++ l2) = leavesList l1 ++ leavesList l2 := by
  induction l1 with
  | nil => simp [leavesList]
  | cons p ps ih => simp [leavesList, ih]

/-- A composite argument contributes exactly the leaves of its `pfs`. -/
theorem leaves_sub_of_multi (x : ParseFailure) (h : x.isMulti = true) :
    leavesList x.subFailures = x.leaves := by
  cases x with
  | leaf m n l c => simp [ParseFailure.isMulti] at h
  | multi m n l c pfs => rfl

/-- Binary `combine` concatenates the underlying failures. -/
theorem leaves_combine (a b : ParseFailure) :
    (a.combine [b]).leaves = a.leaves ++ b.leaves := by
  cases a with
  | leaf m n l c =>
    simp [ParseFailure.combine, ParseFailure.leaves, leavesList]
  | multi m n l c pfs =>
    cases b with
    | leaf m' n' l' c' =>
      simp [ParseFailure.combine, ParseFailure.leaves, ParseFailure.isMulti,
        List.filter, List.flatMap, leavesList_append, leavesList]
    | multi m' n' l' c' pfs' =>
      simp [ParseFailure.combine, ParseFailure.leaves, ParseFailure.isMulti,
        List.filter, List.flatMap, leavesList_append, leavesList,
        ParseFailure.subFailures]

/-- C9: the composite produced by `combine` carries the concatenation (no
deduplication) of the operands' underlying failures, and combination is
associative and commutative up to ordering of the leaf multiset. -/
theorem combine_leaves_union_assoc_comm (a b c : ParseFailure) :
    (a.combine [b]).leaves = a.leaves ++ b.leaves
    ∧ ((a.combine [b]).combine [c]).leaves.Perm
        ((a.combine [b.combine [c]]).leaves)
    ∧ ((a.combine [b]).combine [c]).leaves.Perm
        (((b.combine [a]).combine [c]).leaves) := by
  refine ⟨leaves_combine a b, ?_, ?_⟩
  · rw [leaves_combine, leaves_combine, leaves_combine, leaves_combine,
      List.append_assoc]
  · rw [leaves_combine, leaves_combine, leaves_combine, leaves_combine]
    exact List.perm_append_comm.append_right _

/-! ## The parser layer (src/src/parse.ts)

A `Parser<T>`'s `parse` method takes the lexer (whose only mutable state
relevant to the combinators is its `SourcePosition`) and either returns a
value or throws.  Thrown exceptions are `ParseFailure` values, the
peaceful `EOF`, or other errors (`RangeError`, the ambiguity `Error` of
`parallel`); each is modelled explicitly, together with the state of the
caller's cursor at the moment the exception escapes. -/

inductive PError where
  | pf (e : ParseFailure)
  | eofe
  | other (msg : String)

inductive PResult (α : Type) where
  | ok (v : α) (sp : SourcePosition)
  | thrown (e : PError) (sp : SourcePosition)

/-- A parser is its `parse` function over the cursor. -/
def ParserM (α : Type) : Type := SourcePosition → PResult α

/-- `trivial(value)`: result immediately, no parsing. -/
def trivialP {α : Type} (v : α) : ParserM α := fun sp => .ok v sp

/-- `ifElse(ifParser, elseParser)` (src/src/parse.ts lines 1371-1405).
The entry cursor is saved (`earlyLexer`); the if-branch runs on the live
cursor.  On a `ParseFailure` from it: rethrow if it consumed; otherwise
run the else-branch on a clone of the entry cursor, committing on success;
if the else-branch also throws, rethrow alone when it consumed, combine
(`e1.combine(e)`) when it did not and is a `ParseFailure`. -/
def ifElseP {α : Type} (p q : ParserM α) : ParserM α := fun sp =>
  match p sp with
  | .ok v sp' => .ok v sp'
  | .thrown (.pf e) sp' =>
    if sp'.compareTo sp ≠ .equal then
      .thrown (.pf e) sp'
    else
      match q sp with
      | .ok v spE => .ok v spE
      | .thrown (.pf e1) spE =>
        if spE.compareTo sp ≠ .equal then .thrown (.pf e1) sp'
        else .thrown (.pf (e1.combine [e])) sp'
      | .thrown e1 _ => .thrown e1 sp'
  | .thrown e sp' => .thrown e sp'

/-- C1: `ifElse(p, q)` is ordered choice with backtracking: a success of
`p` is returned as is; a failure of `p` that moved the cursor past the
entry position is rethrown without trying `q`; a failure of `p` in place
restores the cursor and runs `q` from the entry position, returning `q`'s
success, the combined failure when `q` fails in place, and `q`'s failure
alone when `q` fails having consumed. -/
theorem ifElse_ordered_choice_spec {α : Type} (p q : ParserM α) (sp : SourcePosition) :
    (∀ v sp', p sp = .ok v sp' → ifElseP p q sp = .ok v sp')
    ∧ (∀ e sp', p sp = .thrown (.pf e) sp' → sp'.compareTo sp = .forward →
        ifElseP p q sp = .thrown (.pf e) sp')
    ∧ (∀ e sp', p sp = .thrown (.pf e) sp' → sp'.compareTo sp = .equal →
        (∀ v spE, q sp = .ok v spE → ifElseP p q sp = .ok v spE)
        ∧ (∀ e1 spE, q sp = .thrown (.pf e1) spE → spE.compareTo sp = .equal →
            ifElseP p q sp = .thrown (.pf (e1.combine [e])) sp)
        ∧ (∀ e1 spE, q sp = .thrown (.pf e1) spE → spE.compareTo sp = .forward →
            ifElseP p q sp = .thrown (.pf e1) sp)) := by
  refine ⟨?_, ?_, ?_⟩
  · intro v sp' hp
    simp only [ifElseP, hp]
  · intro e sp' hp hfwd
    simp only [ifElseP, hp, hfwd]
    simp
  · intro e sp' hp heq
    have hsp : sp' = sp := compareTo_eq_equal heq
    rw [hsp] at hp heq
    refine ⟨?_, ?_, ?_⟩
    · intro v spE hq
      simp only [ifElseP, hp, heq, hq]
      simp
    · intro e1 spE hq heq1
      have hspE : spE = sp := compareTo_eq_equal heq1
      rw [hspE] at hq heq1
      simp only [ifElseP, hp, heq, hq, heq1]
      simp
    · intro e1 spE hq hfwd1
      simp only [ifElseP, hp, heq, hq, hfwd1]
      simp

/-- Entry cursor used by the parser-level witnesses. -/
def wsp0 : SourcePosition := ⟨"", ['x', 'y'], 1, 1⟩

def failureA : ParseFailure := .leaf "A" "" 1 1

def failureB : ParseFailure := .leaf "B" "" 1 1

/-- A parser failing in place with `failureA`. -/
def pFailA : ParserM Nat := fun sp => .thrown (.pf failureA) sp

/-- A parser failing in place with `failureB`. -/
def pFailB : ParserM Nat := fun sp => .thrown (.pf failureB) sp

/-- Witness for `ifElse_ordered_choice_spec`: both branches fail in place,
so the combined failure is thrown at the entry cursor. -/
theorem ifElse_ordered_choice_spec_witness :
    ifElseP pFailA pFailB wsp0 = .thrown (.pf (failureB.combine [failureA])) wsp0 :=
  (((ifElse_ordered_choice_spec pFailA pFailB wsp0).2.2 failureA wsp0 rfl
      (by decide)).2.1) failureB wsp0 rfl (by decide)

/-! ## `many` (src/src/parse.ts lines 1263-1287)

The source sets `const MAX_REPEAT = Infinity` (lines 988-992), so the
`for (let i = 0; i < MAX_REPEAT; i++)` loop has no reachable exit other
than an iteration failing: the `console.warn` + partial-result return
after the loop is dead code.  The loop is embedded with a fuel argument:
`manyRun p fuel acc sp = none` means the loop is still running after
`fuel` iterations, `some r` means it finished with result `r` within
`fuel` iterations.  The source's `many` is the limit over all fuels;
`none` for every fuel is divergence. -/

def manyRun {α : Type} (p : ParserM α) :
    Nat → List α → SourcePosition → Option (PResult (List α))
  | 0, _, _ => none
  | fuel + 1, acc, sp =>
    match p sp with
    | .ok v sp' => manyRun p fuel (acc ++ [v]) sp'
    | .thrown (.pf e) sp' =>
      if sp'.compareTo sp ≠ .equal then some (.thrown (.pf e) sp')
      else some (.ok acc sp')
    | .thrown .eofe sp' =>
      if sp'.compareTo sp ≠ .equal then some (.thrown .eofe sp')
      else some (.ok acc sp')
    | .thrown e sp' => some (.thrown e sp')

/-- `many(p)` ran from `sp` finishes within some number of iterations. -/
def ManyRunCompletes {α : Type} (p : ParserM α) (sp : SourcePosition) : Prop :=
  ∃ fuel r, manyRun p fuel [] sp = some r

/-- A parser that always succeeds without consuming keeps the `many` loop
running forever: no fuel ever finishes it. -/
theorem manyRun_nonconsuming_none {α : Type} (p : ParserM α)
    (h : ∀ sp, ∃ v, p sp = .ok v sp) :
    ∀ fuel acc sp, manyRun p fuel acc sp = none := by
  intro fuel
  induction fuel with
  | zero => intro acc sp; rfl
  | succ n ih =>
    intro acc sp
    obtain ⟨v, hv⟩ := h sp
    simp only [manyRun, hv]
    exact ih (acc ++ [v]) sp

/-- C2 (counterexample): with `MAX_REPEAT = Infinity`, `many(trivial 0)`
(`trivial` succeeds immediately without touching the cursor) never
terminates — contrary to the claim that it terminates after `MAX_REPEAT`
iterations with a warning and a partial result vector. -/
theorem many_nonconsuming_never_terminates :
    ¬ ManyRunCompletes (trivialP (0 : Nat)) wsp0 := by
  rintro ⟨fuel, r, hr⟩
  rw [manyRun_nonconsuming_none (trivialP 0) (fun sp => ⟨0, rfl⟩) fuel [] wsp0] at hr
  cases hr

/-- C2 (amended): because the source fixes `MAX_REPEAT` at `Infinity`, a
parser that always succeeds without consuming makes `many` loop forever
(no warning, no partial vector); and for every parser, an iteration
failing (ParseFailure or EOF) without consuming stops `many` with the
accumulated results, while an iteration failing after consuming fails the
whole `many`. -/
theorem many_repeat_discipline {α : Type} :
    (∀ (p : ParserM α), (∀ sp, ∃ v, p sp = .ok v sp) →
        ∀ fuel acc sp, manyRun p fuel acc sp = none)
    ∧ (∀ (p : ParserM α) e sp sp' acc fuel,
        p sp = .thrown (.pf e) sp' → sp'.compareTo sp = .equal →
        manyRun p (fuel + 1) acc sp = some (.ok acc sp'))
    ∧ (∀ (p : ParserM α) e sp sp' acc fuel,
        p sp = .thrown (.pf e) sp' → sp'.compareTo sp = .forward →
        manyRun p (fuel + 1) acc sp = some (.thrown (.pf e) sp')) := by
  refine ⟨manyRun_nonconsuming_none, ?_, ?_⟩
  · intro p e sp sp' acc fuel hp heq
    simp only [manyRun, hp, heq]
    simp
  · intro p e sp sp' acc fuel hp hfwd
    simp only [manyRun, hp, hfwd]
    simp

/-- Witness for `many_repeat_discipline`: a parser failing in place stops
`many` with the (empty) accumulated results; `trivial` loops. -/
theorem many_repeat_discipline_witness :
    manyRun pFailA 4 [] wsp0 = some (.ok [] wsp0)
    ∧ manyRun (trivialP (1 : Nat)) 4 [] wsp0 = none := by
  constructor
  · exact many_repeat_discipline.2.1 pFailA failureA wsp0 wsp0 [] 3 rfl (by decide)
  · exact many_repeat_discipline.1 (trivialP 1) (fun sp => ⟨1, rfl⟩) 4 [] wsp0

/-! ## `parallel` (src/src/parse.ts lines 1306-1362)

Each branch runs on its own clone of the cursor, catching `ParseFailure`
into a value; any other exception rejects the whole combinator with the
caller's cursor untouched (the if-branch is started first, so its
rejection wins when both reject).  When both branches produce
`ParseFailure`s the combined failure is thrown; when exactly one
succeeds, its clone is committed.  When both succeed the source assigns
the caller's cursor (the else-clone if the if-clone compares `forward`,
the if-clone otherwise) and then rejects with the ambiguity `Error` in
every such case — the "more consumption wins" resolution its own doc
comment promises is missing. -/

def parallelP {α : Type} (p q : ParserM α) : ParserM α := fun sp =>
  match p sp, q sp with
  | .ok _ spI, .ok _ spE =>
    if spI.compareTo spE = .forward then
      .thrown (.other "syntax ambiguity found in parallel parser") spE
    else
      .thrown (.other "syntax ambiguity found in parallel parser") spI
  | .ok v spI, .thrown (.pf _) _ => .ok v spI
  | .ok _ _, .thrown e2 _ => .thrown e2 sp
  | .thrown (.pf _) _, .ok v spE => .ok v spE
  | .thrown (.pf e1) _, .thrown (.pf e2) _ => .thrown (.pf (e1.combine [e2])) sp
  | .thrown (.pf _) _, .thrown e2 _ => .thrown e2 sp
  | .thrown e1 _, _ => .thrown e1 sp

/-- Concrete parsers for the C3 failing input: on cursor `wsp0` (text
`"xy"`), `pTakeOne` succeeds consuming one character and `pTakeTwo`
succeeds consuming both. -/
def pTakeOne : ParserM Nat := fun sp => .ok 1 (advanceT sp 1)

def pTakeTwo : ParserM Nat := fun sp => .ok 2 (advanceT sp 2)

/-- C3 (code behaviour at the failing input): both branches succeed and
the else-branch consumes strictly more, yet `parallel` throws the
ambiguity error — and leaves the caller's cursor on the if-branch (the
*less* consuming one) — instead of committing to the more-consuming
branch and returning its result as the claim (and the source's own doc
comment) states. -/
theorem parallel_double_success_always_ambiguous :
    parallelP pTakeOne pTakeTwo wsp0 =
      .thrown (.other "syntax ambiguity found in parallel parser") (advanceT wsp0 1)
    ∧ advanceT wsp0 1 ≠ advanceT wsp0 2 := by
  constructor
  · rfl
  · decide

/-! ## `Parser.expect` (src/src/parse.ts lines 1115-1132)

The doc comment says the message is replaced only "if `this` parser failed
without consuming any input", but the implementation catches every
`ParseFailure` and overwrites `e.msg` unconditionally — there is no
consumption check. -/

def expectP {α : Type} (p : ParserM α) (message : String) : ParserM α := fun sp =>
  match p sp with
  | .ok v sp' => .ok v sp'
  | .thrown (.pf e) sp' => .thrown (.pf (e.setMsg ("expected " ++ message))) sp'
  | .thrown e sp' => .thrown e sp'

/-- A parser that consumes one character of `"xy"` and then fails. -/
def pConsumeFail : ParserM Nat := fun sp => .thrown (.pf failureA) (advanceT sp 1)

/-- C8 (code behaviour at the failing input): `p` fails *after consuming*
one character (the cursor moved from column 1 to column 2), yet
`expect` still replaces the failure message — the claim (and the source's
own doc comment) say the original failure should pass through unchanged. -/
theorem expect_replaces_message_despite_consumption :
    expectP pConsumeFail "a thing" wsp0 =
      .thrown (.pf (.leaf "expected a thing" "" 1 1)) (advanceT wsp0 1)
    ∧ advanceT wsp0 1 ≠ wsp0
    ∧ failureA.setMsg "expected a thing" ≠ failureA := by
  refine ⟨rfl, by decide, ?_⟩
  simp [failureA, ParseFailure.setMsg]

/-! ## Tokens and the lexing step

`Lexer.next()` either returns a `Token`, throws the peaceful `EOF`,
throws a `ParseFailure` (lexeme error), or crashes with a non-
`ParseFailure` exception (`RangeError` from the `char` getter).  The
combinators and `allTokens` only interact with `next` through these four
outcomes, so a lexer state is embedded as the cursor together with the
`next` step function induced by its (immutable, shared) `RuleSet`. -/

structure Token where
  type : String
  literal : List Char
  sourceName : String
  line : Nat
  column : Nat
deriving DecidableEq, Repr

inductive LexOutcome where
  | tok (t : Token) (sp : SourcePosition)
  | eof (sp : SourcePosition)
  | fail (e : ParseFailure) (sp : SourcePosition)
  | crash (msg : String) (sp : SourcePosition)

/-- The `next()` step of a lexer: cursor in, outcome and mutated cursor out. -/
def NextFn : Type := SourcePosition → LexOutcome

/-- `token(tokenType)` (src/src/parse.ts lines 1180-1194).  The entry
cursor is cloned; `nextExceptEOF` turns `EOF` into the restore-and-throw
of the `onEOF` callback; a token of the wrong type also restores the
cursor before throwing; a lexeme error from `next` itself propagates
unrestored. -/
def tokenP (next : NextFn) (tokenType : String) : ParserM Token := fun sp =>
  match next sp with
  | .eof _ =>
    .thrown (.pf (.leaf ("unexpected end of file, expected " ++ tokenType)
      sp.name sp.line sp.column)) sp
  | .tok tk sp' =>
    if tk.type = tokenType then .ok tk sp'
    else
      .thrown (.pf (.leaf ("expected " ++ tokenType ++ ", got " ++ tk.type)
        sp.name tk.line tk.column)) sp
  | .fail e sp' => .thrown (.pf e) sp'
  | .crash m sp' => .thrown (.other m) sp'

/-- C5: when `token(t)` fails because the input is at end of file or
because the next token's type differs from `t`, the cursor after the call
equals the cursor before the call (the thrown result carries the entry
cursor `sp`); it succeeds, returning the token and committing the lexer's
progress, exactly when the next token's type equals `t`. -/
theorem token_restores_on_eof_and_mismatch (next : NextFn) (t : String)
    (sp : SourcePosition) :
    (∀ spE, next sp = .eof spE →
        tokenP next t sp =
          .thrown (.pf (.leaf ("unexpected end of file, expected " ++ t)
            sp.name sp.line sp.column)) sp)
    ∧ (∀ tk sp', next sp = .tok tk sp' → tk.type ≠ t →
        tokenP next t sp =
          .thrown (.pf (.leaf ("expected " ++ t ++ ", got " ++ tk.type)
            sp.name tk.line tk.column)) sp)
    ∧ (∀ tk sp', next sp = .tok tk sp' → tk.type = t →
        tokenP next t sp = .ok tk sp')
    ∧ (∀ tk sp', tokenP next t sp = .ok tk sp' →
        next sp = .tok tk sp' ∧ tk.type = t) := by
  refine ⟨?_, ?_, ?_, ?_⟩
  · intro spE h
    simp only [tokenP, h]
  · intro tk sp' h hne
    simp only [tokenP, h]
    simp [hne]
  · intro tk sp' h htype
    simp only [tokenP, h]
    simp [htype]
  · intro tk sp' h
    unfold tokenP at h
    cases hn : next sp with
    | tok tk0 sp0 =>
      simp only [tokenP, hn] at h
      by_cases ht : tk0.type = t
      · simp only [ht, if_pos] at h
        injection h with h1 h2
        subst h1
        subst h2
        exact ⟨rfl, ht⟩
      · rw [if_neg ht] at h
        cases h
    | eof sp0 => rw [hn] at h; cases h
    | fail e sp0 => rw [hn] at h; cases h
    | crash m sp0 => rw [hn] at h; cases h

/-- A concrete lexing step for the C5 / C10 witnesses: `'a'` lexes to an
`"A"`-token, end of input is `EOF`, anything else is a lexeme failure. -/
def nextW : NextFn := fun sp =>
  match sp.future with
  | [] => .eof sp
  | 'a' :: _ => .tok ⟨"A", ['a'], sp.name, sp.line, sp.column⟩ (stepT sp)
  | _ :: _ => .fail (.leaf "invalid token" sp.name sp.line sp.column) sp

def c5spA : SourcePosition := ⟨"", ['a', 'b'], 1, 1⟩

/-- Witness for `token_restores_on_eof_and_mismatch`: a mismatching token
type makes `token` fail with the entry cursor restored, and the matching
type succeeds. -/
theorem token_restores_on_eof_and_mismatch_witness :
    tokenP nextW "B" c5spA =
      .thrown (.pf (.leaf "expected B, got A" "" 1 1)) c5spA
    ∧ tokenP nextW "A" c5spA = .ok ⟨"A", ['a'], "", 1, 1⟩ (stepT c5spA) := by
  constructor
  · exact (token_restores_on_eof_and_mismatch nextW "B" c5spA).2.1
      ⟨"A", ['a'], "", 1, 1⟩ (stepT c5spA) rfl (by decide)
  · exact (token_restores_on_eof_and_mismatch nextW "A" c5spA).2.2.1
      ⟨"A", ['a'], "", 1, 1⟩ (stepT c5spA) rfl rfl

/-! ## `Lexer.allTokens` (src/src/lex.ts lines 131-148)

The loop pushes tokens until `next()` throws; a `ParseFailure` is logged
to the console and swallowed, `EOF` ends the loop peacefully, and any
other exception is rethrown.  Fuel bounds the number of iterations (the
loop diverges for a `next` that keeps producing tokens in place); under
the hypotheses of the theorem below the fuel is never exhausted. -/

def allTokensF (next : NextFn) : Nat → SourcePosition → Except (String × SourcePosition) (List Token)
  | 0, _ => .ok []
  | fuel + 1, sp =>
    match next sp with
    | .tok t sp' => (allTokensF next fuel sp').map (fun ts => t :: ts)
    | .eof _ => .ok []
    | .fail _ _ => .ok []
    | .crash m sp' => .error (m, sp')

/-- Repeatedly running `next` from `sp` yields the tokens `ts` and then
stops with outcome `stop` (end of file or a lexeme failure) at `spF`. -/
inductive LexSeq (next : NextFn) : SourcePosition → List Token → PError → SourcePosition → Prop
  | stopEof {sp spF : SourcePosition} :
      next sp = .eof spF → LexSeq next sp [] .eofe spF
  | stopFail {sp spF : SourcePosition} {e : ParseFailure} :
      next sp = .fail e spF → LexSeq next sp [] (.pf e) spF
  | more {sp sp' spF : SourcePosition} {t : Token} {ts : List Token} {stop : PError} :
      next sp = .tok t sp' → LexSeq next sp' ts stop spF →
      LexSeq next sp (t :: ts) stop spF

/-- C10: `allTokens` never propagates a `ParseFailure` or `EOF`: whenever
the lexer produces the tokens `ts` and then hits end of file or a lexical
error, `allTokens` returns exactly `ts` — the caller gets the silently
truncated token list, not the exception. -/
theorem allTokens_swallows_failures (next : NextFn) (sp spF : SourcePosition)
    (ts : List Token) (stop : PError) (fuel : Nat)
    (hrun : LexSeq next sp ts stop spF) (hfuel : ts.length < fuel) :
    allTokensF next fuel sp = .ok ts := by
  induction hrun generalizing fuel with
  | stopEof h =>
    cases fuel with
    | zero => cases hfuel
    | succ n => simp only [allTokensF, h]
  | stopFail h =>
    cases fuel with
    | zero => cases hfuel
    | succ n => simp only [allTokensF, h]
  | more h _ ih =>
    cases fuel with
    | zero => cases hfuel
    | succ n =>
      simp only [allTokensF, h, ih n (by simpa using Nat.lt_of_succ_lt_succ hfuel)]
      rfl

def c10sp : SourcePosition := ⟨"", ['a', 'a', 'z'], 1, 1⟩

def c10tok1 : Token := ⟨"A", ['a'], "", 1, 1⟩

def c10tok2 : Token := ⟨"A", ['a'], "", 1, 2⟩

/-- Witness for `allTokens_swallows_failures`: on `"aaz"` the lexer yields
two tokens and then a lexeme failure on `'z'`; `allTokens` returns the
two tokens and swallows the failure. -/
theorem allTokens_swallows_failures_witness :
    allTokensF nextW 5 c10sp = .ok [c10tok1, c10tok2] := by
  refine allTokens_swallows_failures nextW c10sp
    ⟨"", ['z'], 1, 3⟩ [c10tok1, c10tok2] (.pf (.leaf "invalid token" "" 1 3)) 5 ?_ (by decide)
  refine LexSeq.more rfl (LexSeq.more rfl (LexSeq.stopFail rfl))

/-! ## `choices` (src/src/parse.ts lines 1413-1448) and
`mostConsumedErrors` (lines 1450-1463)

Every branch runs on a fresh clone of the original cursor.  The first
success commits its clone.  Each `ParseFailure` is recorded together with
the failing clone's position; after the last branch fails, the errors
whose positions are maximal (the running-maximum sweep of
`mostConsumedErrors`) are thrown — alone if unique, folded with `combine`
otherwise.  A non-`ParseFailure` exception propagates at once with the
caller's cursor untouched. -/

/-- The sweep of `mostConsumedErrors`: `m0 :: mtail` is the current list
of maximal entries (all comparing `equal` to `m0`); a later entry
comparing `forward` to `m0` restarts the list, an `equal` one is
appended, anything else is skipped. -/
def mceGo (m0 : ParseFailure × SourcePosition)
    (mtail : List (ParseFailure × SourcePosition)) :
    List (ParseFailure × SourcePosition) → List (ParseFailure × SourcePosition)
  | [] => m0 :: mtail
  | x :: xs =>
    if x.2.compareTo m0.2 = .forward then mceGo x [] xs
    else if x.2.compareTo m0.2 = .equal then mceGo m0 (mtail ++ [x]) xs
    else mceGo m0 mtail xs

def mostConsumedErrors :
    List (ParseFailure × SourcePosition) → List (ParseFailure × SourcePosition)
  | [] => []
  | e :: rest => mceGo e [] rest

/-- The throw performed after the last branch of `choices` fails: keep
only the most-consumed errors, throw the single survivor alone or the
left fold of `combine` over all survivors.  (`errs` is non-empty at every
call site; the `[]` arm is unreachable.) -/
def throwMostL {α : Type} (errs : List (ParseFailure × SourcePosition))
    (sp0 : SourcePosition) : PResult α :=
  match mostConsumedErrors errs with
  | [] => .thrown (.other "unreachable: empty error list") sp0
  | [single] => .thrown (.pf single.1) sp0
  | e0 :: rest =>
    .thrown (.pf (rest.foldl (fun acc x => acc.combine [x.1]) e0.1)) sp0

/-- The `for` loop of `choices`.  `sp0` is the original cursor (each
branch runs on a clone of it); the second list accumulates the recorded
failures.  `choices()` invoked with no parsers at all skips the loop and
resolves with `undefined`, modelled by `default`. -/
def choicesGo {α : Type} [Inhabited α] (sp0 : SourcePosition) :
    List (ParserM α) → List (ParseFailure × SourcePosition) → PResult α
  | [], _ => .ok default sp0
  | [p], errs =>
    match p sp0 with
    | .ok v sp' => .ok v sp'
    | .thrown (.pf e) sp' => throwMostL (errs ++ [(e, sp')]) sp0
    | .thrown e _ => .thrown e sp0
  | p :: q :: ps, errs =>
    match p sp0 with
    | .ok v sp' => .ok v sp'
    | .thrown (.pf e) sp' => choicesGo sp0 (q :: ps) (errs ++ [(e, sp')])
    | .thrown e _ => .thrown e sp0

/-- `choices(...parsers)`. -/
def choicesP {α : Type} [Inhabited α] (ps : List (ParserM α)) : ParserM α :=
  fun sp => choicesGo sp ps []

/-- Claim-side measure: the largest consumption among the recorded
branch failures (`(failure, consumed-characters)` pairs). -/
def maxConsumption (l : List (ParseFailure × Nat)) : Nat :=
  l.foldr (fun x a => max x.2 a) 0

/-- The embedding of a recorded failure: the branch that consumed `k`
characters left its clone at `advanceT sp0 k`. -/
def atConsumed (sp0 : SourcePosition) (ek : ParseFailure × Nat) :
    ParseFailure × SourcePosition :=
  (ek.1, advanceT sp0 ek.2)

theorem occursIn_drop (m : List Char) (j : Nat) : OccursIn (m.drop j) m :=
  ⟨m.take j, [], by simp⟩

theorem drop_length_lt {l : List Char} {k1 k2 : Nat} (h : k1 < k2)
    (hk : k2 ≤ l.length) : (l.drop k2).length < (l.drop k1).length := by
  simp only [List.length_drop]
  omega

/-- Two positions reached by consuming different amounts from the same
cursor compare `forward` when `self` consumed strictly more. -/
theorem compareTo_advanceT_forward (sp0 : SourcePosition) {k1 k2 : Nat}
    (h : k2 < k1) (hk : k1 ≤ sp0.future.length) :
    (advanceT sp0 k1).compareTo (advanceT sp0 k2) = .forward := by
  have hlt : (sp0.future.drop k1).length < (sp0.future.drop k2).length :=
    drop_length_lt h hk
  have hne : (advanceT sp0 k1).future ≠ (advanceT sp0 k2).future := by
    rw [advanceT_future, advanceT_future]
    intro he
    rw [he] at hlt
    exact lt_irrefl _ hlt
  have hnb : ¬ strContains (advanceT sp0 k1).future (advanceT sp0 k2).future = true := by
    rw [advanceT_future, advanceT_future]
    intro hc
    have := ((strContains_iff _ _).mp hc).length_le
    omega
  have hf : strContains (advanceT sp0 k2).future (advanceT sp0 k1).future = true := by
    rw [advanceT_future, advanceT_future, (strContains_iff _ _)]
    have : sp0.future.drop k1 = (sp0.future.drop k2).drop (k1 - k2) := by
      rw [List.drop_drop]
      congr 1
      omega
    rw [this]
    exact occursIn_drop _ _
  unfold SourcePosition.compareTo
  rw [if_neg (by tauto), if_neg (by tauto),
    if_pos ⟨by rw [advanceT_name, advanceT_name], hf⟩]

/-- Symmetrically, `behind` when `self` consumed strictly less. -/
theorem compareTo_advanceT_behind (sp0 : SourcePosition) {k1 k2 : Nat}
    (h : k1 < k2) (hk : k2 ≤ sp0.future.length) :
    (advanceT sp0 k1).compareTo (advanceT sp0 k2) = .behind := by
  have hlt : (sp0.future.drop k2).length < (sp0.future.drop k1).length :=
    drop_length_lt h hk
  have hne : (advanceT sp0 k1).future ≠ (advanceT sp0 k2).future := by
    rw [advanceT_future, advanceT_future]
    intro he
    rw [he] at hlt
    exact lt_irrefl _ hlt
  have hb : strContains (advanceT sp0 k1).future (advanceT sp0 k2).future = true := by
    rw [advanceT_future, advanceT_future, (strContains_iff _ _)]
    have : sp0.future.drop k2 = (sp0.future.drop k1).drop (k2 - k1) := by
      rw [List.drop_drop]
      congr 1
      omega
    rw [this]
    exact occursIn_drop _ _
  unfold SourcePosition.compareTo
  rw [if_neg (by tauto), if_pos ⟨by rw [advanceT_name, advanceT_name], hb⟩]

theorem max_absorb (a b m : Nat) (h : b ≤ a) : max a (max b m) = max a m := by
  rcases Nat.le_total b m with h1 | h1
  · rw [Nat.max_eq_right h1]
  · rw [Nat.max_eq_left h1, Nat.max_eq_left h, Nat.max_eq_left (le_trans h1 h)]

/-- A filtered-out left part contributes nothing to the `filter` of an
append. -/
theorem filter_append_left_nil {β : Type} (p : β → Bool) (l1 l2 : List β)
    (h : List.filter p l1 = []) :
    List.filter p (l1 ++ l2) = List.filter p l2 := by
  rw [List.filter_append, h, List.nil_append]

/-- Dropping an element the (boolean) predicate rejects from the middle of
a list does not change its `filter`. -/
theorem filter_middle_skip {β : Type} (p : β → Bool) (l1 l2 : List β) (a : β)
    (h : p a = false) :
    List.filter p (l1 ++ a :: l2) = List.filter p (l1 ++ l2) := by
  rw [List.filter_append, List.filter_append, List.filter_cons_of_neg (by simp [h])]

/-- The `mostConsumedErrors` sweep keeps exactly the entries whose
consumption is maximal, in order of appearance: running it with current
maximal entries `c0 :: ct` (all of consumption `c0.2`) over `rest` yields
the entries of the whole list achieving the overall maximum. -/
theorem mceGo_spec (sp0 : SourcePosition) :
    ∀ (rest : List (ParseFailure × Nat)) (c0 : ParseFailure × Nat)
      (ct : List (ParseFailure × Nat)),
      (∀ x ∈ ct, x.2 = c0.2) → c0.2 ≤ sp0.future.length →
      (∀ x ∈ rest, x.2 ≤ sp0.future.length) →
      mceGo (atConsumed sp0 c0) (ct.map (atConsumed sp0)) (rest.map (atConsumed sp0))
        = ((c0 :: ct ++ rest).filter
            (fun x => x.2 == max c0.2 (maxConsumption rest))).map (atConsumed sp0) := by
  intro rest
  induction rest with
  | nil =>
    intro c0 ct hct hc0 _
    have hfilter : (c0 :: ct ++ []).filter
        (fun x => x.2 == max c0.2 (maxConsumption [])) = c0 :: ct := by
      rw [List.append_nil]
      refine List.filter_eq_self.mpr ?_
      intro x hx
      rcases List.mem_cons.mp hx with rfl | hx'
      · simp [maxConsumption]
      · simp [maxConsumption, hct x hx']
    rw [hfilter]
    simp [mceGo]
  | cons x xs ih =>
    intro c0 ct hct hc0 hrest
    have hx2 : x.2 ≤ sp0.future.length := hrest x (by simp)
    have hxs : ∀ y ∈ xs, y.2 ≤ sp0.future.length := fun y hy => hrest y (by simp [hy])
    have hmaxcons : maxConsumption (x :: xs) = max x.2 (maxConsumption xs) := rfl
    simp only [List.map_cons, mceGo]
    rcases Nat.lt_trichotomy x.2 c0.2 with hlt | heq | hgt
    · -- this entry consumed strictly less: it is skipped
      have hcmp : (atConsumed sp0 x).2.compareTo (atConsumed sp0 c0).2 = .behind :=
        compareTo_advanceT_behind sp0 hlt hc0
      rw [if_neg (by rw [hcmp]; exact fun h => by cases h),
        if_neg (by rw [hcmp]; exact fun h => by cases h)]
      rw [ih c0 ct hct hc0 hxs]
      have hmax : max c0.2 (maxConsumption (x :: xs)) = max c0.2 (maxConsumption xs) := by
        rw [hmaxcons]
        exact max_absorb _ _ _ (le_of_lt hlt)
      rw [hmax]
      have hfx : ((fun (y : ParseFailure × Nat) =>
          y.2 == max c0.2 (maxConsumption xs)) x) = false := by
        simp only [beq_eq_false_iff_ne, ne_eq]
        have h1 : c0.2 ≤ max c0.2 (maxConsumption xs) := Nat.le_max_left _ _
        omega
      have h1 : c0 :: ct ++ x :: xs = (c0 :: ct) ++ (x :: xs) := rfl
      have h2 : c0 :: ct ++ xs = (c0 :: ct) ++ xs := rfl
      refine congrArg (List.map (atConsumed sp0)) ?_
      rw [h1, h2]
      exact (filter_middle_skip _ (c0 :: ct) xs x hfx).symm
    · -- equal consumption: appended to the maximal list
      have hax : atConsumed sp0 x = (x.1, advanceT sp0 c0.2) := by
        simp [atConsumed, heq]
      have hcmp : (atConsumed sp0 x).2.compareTo (atConsumed sp0 c0).2 = .equal := by
        rw [hax]
        exact compareTo_self _
      rw [if_neg (by rw [hcmp]; exact fun h => by cases h), if_pos hcmp]
      have hmap : (ct.map (atConsumed sp0)) ++ [atConsumed sp0 x]
          = (ct ++ [x]).map (atConsumed sp0) := by simp
      rw [hmap, ih c0 (ct ++ [x])
        (by intro y hy
            rcases List.mem_append.mp hy with hy' | hy'
            · exact hct y hy'
            · rcases List.mem_singleton.mp hy' with rfl
              exact heq)
        hc0 hxs]
      have hmax : max c0.2 (maxConsumption (x :: xs)) = max c0.2 (maxConsumption xs) := by
        rw [hmaxcons, heq]
        exact max_absorb _ _ _ (le_refl _)
      rw [hmax]
      have hlist : (c0 :: (ct ++ [x]) ++ xs) = (c0 :: ct ++ x :: xs) := by simp
      rw [hlist]
    · -- strictly larger consumption: the maximal list restarts here
      have hcmp : (atConsumed sp0 x).2.compareTo (atConsumed sp0 c0).2 = .forward :=
        compareTo_advanceT_forward sp0 hgt hx2
      rw [if_pos hcmp]
      have hnil : ([] : List (ParseFailure × SourcePosition))
          = ([] : List (ParseFailure × Nat)).map (atConsumed sp0) := rfl
      rw [hnil, ih x [] (by intro y hy; cases hy) hx2 hxs]
      have hmax : max c0.2 (maxConsumption (x :: xs)) = max x.2 (maxConsumption xs) := by
        rw [hmaxcons]
        refine Nat.max_eq_right ?_
        exact le_trans (le_of_lt hgt) (Nat.le_max_left _ _)
      rw [hmax]
      have hdrop : List.filter
          (fun y : ParseFailure × Nat => y.2 == max x.2 (maxConsumption xs)) (c0 :: ct) = [] := by
        refine List.filter_eq_nil_iff.mpr ?_
        intro y hy
        have hy2 : y.2 = c0.2 := by
          rcases List.mem_cons.mp hy with rfl | hy'
          · rfl
          · exact hct y hy'
        simp only [beq_eq_false_iff_ne, ne_eq, Bool.not_eq_true]
        have h1 : x.2 ≤ max x.2 (maxConsumption xs) := Nat.le_max_left _ _
        simp only [beq_eq_false_iff_ne, ne_eq]
        omega
      have h1 : c0 :: ct ++ x :: xs = (c0 :: ct) ++ (x :: xs) := rfl
      refine congrArg (List.map (atConsumed sp0)) ?_
      rw [h1]
      exact (filter_append_left_nil _ (c0 :: ct) (x :: xs) hdrop).symm

/-- `mostConsumedErrors` keeps exactly the recorded failures whose branch
consumed the most, in order of appearance. -/
theorem mostConsumedErrors_spec (sp0 : SourcePosition) (s0 : ParseFailure × Nat)
    (srest : List (ParseFailure × Nat))
    (hb : ∀ x ∈ s0 :: srest, x.2 ≤ sp0.future.length) :
    mostConsumedErrors ((s0 :: srest).map (atConsumed sp0))
      = ((s0 :: srest).filter
          (fun x => x.2 == maxConsumption (s0 :: srest))).map (atConsumed sp0) := by
  simp only [List.map_cons, mostConsumedErrors]
  have h := mceGo_spec sp0 srest s0 [] (by intro x hx; cases hx) (hb s0 (by simp))
    (fun x hx => hb x (by simp [hx]))
  simpa using h

/-- The maximum consumption is attained by some recorded failure. -/
theorem maxConsumption_attained (s0 : ParseFailure × Nat)
    (srest : List (ParseFailure × Nat)) :
    ∃ x ∈ s0 :: srest, x.2 = maxConsumption (s0 :: srest) := by
  induction srest generalizing s0 with
  | nil => exact ⟨s0, by simp, by simp [maxConsumption]⟩
  | cons y ys ih =>
    have hunfold : maxConsumption (s0 :: y :: ys)
        = max s0.2 (maxConsumption (y :: ys)) := rfl
    rcases Nat.le_total s0.2 (maxConsumption (y :: ys)) with h | h
    · obtain ⟨x, hx, hx2⟩ := ih y
      refine ⟨x, ?_, ?_⟩
      · rcases List.mem_cons.mp hx with rfl | hx'
        · simp
        · simp [List.mem_cons, Or.inr (Or.inr hx')]
      · rw [hx2, hunfold, Nat.max_eq_right h]
    · exact ⟨s0, by simp, by rw [hunfold, Nat.max_eq_left h]⟩

/-- The left fold of `combine` used by `choices` concatenates leaves. -/
theorem leaves_foldl_combine (l : List (ParseFailure × SourcePosition))
    (e0 : ParseFailure) :
    (l.foldl (fun acc x => acc.combine [x.1]) e0).leaves
      = e0.leaves ++ leavesList (l.map (fun x => x.1)) := by
  induction l generalizing e0 with
  | nil => simp [leavesList]
  | cons x xs ih =>
    simp only [List.foldl_cons, List.map_cons, leavesList]
    rw [ih, leaves_combine, List.append_assoc]

/-- The throw at the end of `choices` produces a failure whose underlying
leaves are exactly those of the most-consuming branches. -/
theorem throwMostL_spec {α : Type} (sp0 : SourcePosition) (s0 : ParseFailure × Nat)
    (srest : List (ParseFailure × Nat))
    (hb : ∀ x ∈ s0 :: srest, x.2 ≤ sp0.future.length) :
    ∃ F, (throwMostL ((s0 :: srest).map (atConsumed sp0)) sp0 : PResult α)
        = .thrown (.pf F) sp0
      ∧ F.leaves = leavesList
          (((s0 :: srest).filter (fun x => x.2 == maxConsumption (s0 :: srest))).map
            (fun x => x.1)) := by
  obtain ⟨w, hw, hw2⟩ := maxConsumption_attained s0 srest
  have hne : ((s0 :: srest).filter
      (fun x => x.2 == maxConsumption (s0 :: srest))) ≠ [] := by
    intro h
    have hmem : w ∈ (s0 :: srest).filter
        (fun x => x.2 == maxConsumption (s0 :: srest)) :=
      List.mem_filter.mpr ⟨hw, by simp [hw2]⟩
    rw [h] at hmem
    cases hmem
  cases hf : (s0 :: srest).filter (fun x => x.2 == maxConsumption (s0 :: srest)) with
  | nil => exact absurd hf hne
  | cons f0 frest =>
    cases frest with
    | nil =>
      refine ⟨f0.1, ?_, ?_⟩
      · unfold throwMostL
        rw [mostConsumedErrors_spec sp0 s0 srest hb, hf]
        rfl
      · simp [leavesList]
    | cons g gs =>
      refine ⟨((atConsumed sp0 g :: gs.map (atConsumed sp0)).foldl
        (fun acc x => acc.combine [x.1]) f0.1), ?_, ?_⟩
      · unfold throwMostL
        rw [mostConsumedErrors_spec sp0 s0 srest hb, hf]
        rfl
      · rw [leaves_foldl_combine]
        simp only [leavesList, List.map_map, List.map_cons]
        rfl

/-- Skipping any number of branches that fail with a `ParseFailure`,
`choices` commits the first success. -/
theorem choicesGo_success {α : Type} [Inhabited α] (sp0 : SourcePosition)
    (p : ParserM α) (v : α) (sp' : SourcePosition) (hp : p sp0 = .ok v sp')
    (rest : List (ParserM α)) :
    ∀ (pre : List (ParserM α)) (errs : List (ParseFailure × SourcePosition)),
      (∀ q ∈ pre, ∃ e spq, q sp0 = PResult.thrown (.pf e) spq) →
      choicesGo sp0 (pre ++ p :: rest) errs = .ok v sp' := by
  intro pre
  induction pre with
  | nil =>
    intro errs _
    cases rest with
    | nil => simp only [List.nil_append, choicesGo, hp]
    | cons r rs => simp only [List.nil_append, choicesGo, hp]
  | cons q pre' ih =>
    intro errs hpre
    obtain ⟨e, spq, hq⟩ := hpre q (by simp)
    have hne : pre' ++ p :: rest ≠ [] := by simp
    cases hl : pre' ++ p :: rest with
    | nil => exact absurd hl hne
    | cons a as =>
      rw [List.cons_append, hl]
      simp only [choicesGo, hq]
      rw [← hl]
      exact ih (errs ++ [(e, spq)]) (fun r hr => hpre r (by simp [hr]))

/-- When every branch fails with a `ParseFailure`, the loop of `choices`
ends in the most-consumed throw over all recorded failures. -/
theorem choicesGo_allfail {α : Type} [Inhabited α] (sp0 : SourcePosition)
    (ps : List (ParserM α)) (specs : List (ParseFailure × Nat))
    (hfa : List.Forall₂
      (fun p ek => p sp0 = PResult.thrown (.pf ek.1) (advanceT sp0 ek.2)) ps specs) :
    specs ≠ [] →
    ∀ (acc : List (ParseFailure × Nat)),
      choicesGo sp0 ps (acc.map (atConsumed sp0))
        = throwMostL ((acc ++ specs).map (atConsumed sp0)) sp0 := by
  induction hfa with
  | nil => intro h; exact absurd rfl h
  | @cons p ek ps' specs' hp htail ih =>
    intro _ acc
    cases htail with
    | nil =>
      simp only [choicesGo, hp]
      have hmap : (acc.map (atConsumed sp0)) ++ [(ek.1, advanceT sp0 ek.2)]
          = (acc ++ [ek]).map (atConsumed sp0) := by
        simp [atConsumed]
      rw [hmap]
    | @cons p2 ek2 ps2 specs2 hp2 htail2 =>
      simp only [choicesGo, hp]
      have hmap : (acc.map (atConsumed sp0)) ++ [(ek.1, advanceT sp0 ek.2)]
          = (acc ++ [ek]).map (atConsumed sp0) := by
        simp [atConsumed]
      rw [hmap, ih (by simp) (acc ++ [ek])]
      have hlist : acc ++ [ek] ++ (ek2 :: specs2) = acc ++ ek :: ek2 :: specs2 := by
        simp
      rw [hlist]

/-- C6: `choices(p1, …, pn)` tries each parser in order on a clone of the
cursor and commits the first success; when every branch fails, the thrown
failure's underlying constituents are exactly the failures of the
branch(es) whose clone consumed the most input, combined into one
composite when several branches share that maximal consumption. -/
theorem choices_first_success_and_furthest_error {α : Type} [Inhabited α]
    (sp0 : SourcePosition) :
    (∀ (pre rest : List (ParserM α)) (p : ParserM α) (v : α) (sp' : SourcePosition),
        (∀ q ∈ pre, ∃ e spq, q sp0 = PResult.thrown (.pf e) spq) →
        p sp0 = .ok v sp' →
        choicesP (pre ++ p :: rest) sp0 = .ok v sp')
    ∧ (∀ (ps : List (ParserM α)) (s0 : ParseFailure × Nat)
          (srest : List (ParseFailure × Nat)),
        List.Forall₂
          (fun p ek => p sp0 = PResult.thrown (.pf ek.1) (advanceT sp0 ek.2))
          ps (s0 :: srest) →
        (∀ ek ∈ s0 :: srest, ek.2 ≤ sp0.future.length) →
        ∃ F, choicesP ps sp0 = .thrown (.pf F) sp0
          ∧ F.leaves = leavesList (((s0 :: srest).filter
              (fun ek => ek.2 == maxConsumption (s0 :: srest))).map
                (fun ek => ek.1))) := by
  constructor
  · intro pre rest p v sp' hpre hp
    exact choicesGo_success sp0 p v sp' hp rest pre [] hpre
  · intro ps s0 srest hfa hb
    have h1 : choicesP ps sp0
        = throwMostL ((s0 :: srest).map (atConsumed sp0)) sp0 := by
      have h := choicesGo_allfail sp0 ps (s0 :: srest) hfa (by simp)
        ([] : List (ParseFailure × Nat))
      simpa [choicesP] using h
    rw [h1]
    exact throwMostL_spec sp0 s0 srest hb

def failureC : ParseFailure := .leaf "C" "" 1 1

/-- Branches for the C6 witness: all fail; the first and third consume one
character, the second consumes nothing. -/
def cq1 : ParserM Nat := fun _ => .thrown (.pf failureA) (advanceT wsp0 1)

def cq2 : ParserM Nat := fun _ => .thrown (.pf failureB) (advanceT wsp0 0)

def cq3 : ParserM Nat := fun _ => .thrown (.pf failureC) (advanceT wsp0 1)

/-- Witness for `choices_first_success_and_furthest_error`: a failing
branch followed by a successful one commits the success; three failing
branches throw a failure whose leaves are exactly the two maximally
consuming branches' failures. -/
theorem choices_first_success_and_furthest_error_witness :
    choicesP [pFailA, pTakeOne] wsp0 = .ok 1 (advanceT wsp0 1)
    ∧ ∃ F, choicesP [cq1, cq2, cq3] wsp0 = .thrown (.pf F) wsp0
        ∧ F.leaves = [failureA, failureC] := by
  constructor
  · exact (choices_first_success_and_furthest_error wsp0).1 [pFailA] [] pTakeOne 1
      (advanceT wsp0 1)
      (by intro q hq
          rcases List.mem_singleton.mp hq with rfl
          exact ⟨failureA, wsp0, rfl⟩)
      rfl
  · obtain ⟨F, h1, h2⟩ := (choices_first_success_and_furthest_error wsp0).2
      [cq1, cq2, cq3] (failureA, 1) [(failureB, 0), (failureC, 1)]
      (List.Forall₂.cons rfl (List.Forall₂.cons rfl
        (List.Forall₂.cons rfl List.Forall₂.nil)))
      (by decide)
    refine ⟨F, h1, ?_⟩
    rw [h2]
    simp [maxConsumption, leavesList, ParseFailure.leaves, failureA, failureB, failureC]

/-! ## The Lexer (src/src/lex.ts, `RuleSet` and `Lexer.next`)

A compiled `RuleSet`: quote table, comment configuration and guards.
Transformer-valued guards (`TokenMapper`) are not used by any rule set
considered here and are omitted; a dynamic guard's regex is embedded as
its matching function (`rest ↦ match[0]`). -/

structure Quotation where
  tokenType : String
  stop : List Char
  escape : Bool
  multiline : Bool

structure RuleSetM where
  skipSpaces : Bool
  commentLine : Option (List Char)
  commentNested : Option (List Char × List Char × Bool)
  quotes : List (List Char × Quotation)
  staticGuard : List (List Char × String)
  dynamicGuard : List ((List Char → Option (List Char)) × String)

def TK_QUOTED_STRING : String := "__quoted_by_"

def TK_NUMBER_NOFOLLOW : String := "__number_nofollow"

/-- The `string: '"'` preset branch of the `RuleSet` constructor: one
quote entry with token type `__quoted_by_<delim>`, same stop delimiter,
escapes on, single-line; `skipSpaces` ends up `true` (the constructor
computes `presetConfig.skipSpaces || true`). -/
def stringPresetRuleSet (quote : List Char) : RuleSetM :=
  { skipSpaces := true
    commentLine := none
    commentNested := none
    quotes := [(quote, ⟨TK_QUOTED_STRING ++ String.mk quote, quote, true, false⟩)]
    staticGuard := []
    dynamicGuard := [] }

/-- The source's `isDigit` / `isOctal` / `isHexadecimal` (char-code
range checks). -/
def isDigit (c : Char) : Bool :=
  decide (0x30 ≤ c.toNat) && decide (c.toNat ≤ 0x39)

def isOctal (c : Char) : Bool :=
  decide (0x30 ≤ c.toNat) && decide (c.toNat ≤ 0x37)

def isHexadecimal (c : Char) : Bool :=
  isDigit c || (decide (0x41 ≤ c.toNat) && decide (c.toNat ≤ 0x46))
    || (decide (0x61 ≤ c.toNat) && decide (c.toNat ≤ 0x66))

/-- The single-character escapes of the `switch` (`\a \b \f \n \r \t \v
\\ \' \" \?`). -/
def escChar (c : Char) : Option Char :=
  if c = 'a' then some (Char.ofNat 7)
  else if c = 'b' then some (Char.ofNat 8)
  else if c = 'f' then some (Char.ofNat 12)
  else if c = 'n' then some (Char.ofNat 10)
  else if c = 'r' then some (Char.ofNat 13)
  else if c = 't' then some (Char.ofNat 9)
  else if c = 'v' then some (Char.ofNat 11)
  else if c = '\\' then some '\\'
  else if c = '\'' then some '\''
  else if c = '"' then some '"'
  else if c = '?' then some '?'
  else none

/-- `parseInt(n, 10)` on the collected decimal digits. -/
def decValue (ds : List Char) : Nat :=
  ds.foldl (fun a c => a * 10 + (c.toNat - 0x30)) 0

/-- The `\o`/`\x`/`\u`/`\w` digit loops (`for (let i = 0; i < k;)`)
never increment `i`, so they run until an `advance()` at end of input
throws `UnexpectedEOF`, the explicit EOF check throws `UnexpectedEOF`,
or a character failing the predicate throws the `ParseFailure` with
`errMsg`.  The first list argument mirrors `sp.future` so the recursion
is structural. -/
def escRunGo (pred : Char → Bool) (errMsg : String) :
    List Char → SourcePosition → ParseFailure × SourcePosition
  | [], sp => (unexpectedEOF sp.name, sp)
  | _ :: rest, sp =>
    match rest with
    | [] => (unexpectedEOF (stepT sp).name, stepT sp)
    | c :: _ =>
      if pred c then escRunGo pred errMsg rest (stepT sp)
      else (.leaf errMsg (stepT sp).name (stepT sp).line (stepT sp).column, stepT sp)

/-- The line-comment skip: `while (!eof && char !== '\n') advance()`. -/
def skipToNewlineGo : List Char → SourcePosition → SourcePosition
  | [], sp => sp
  | c :: rest, sp => if c = '\n' then sp else skipToNewlineGo rest (stepT sp)

/-- `skipWhites` (src/src/lex.ts lines 394-424): whitespace, line
comments and (possibly nested) block comments, with `ncLevel` the block
depth.  Iterations are bounded by fuel; every iteration consumes at
least one character for the non-degenerate configurations used here. -/
def skipWhitesF (rs : RuleSetM) : Nat → Nat → SourcePosition → SourcePosition
  | 0, _, sp => sp
  | fuel + 1, ncLevel, sp =>
    match sp.future with
    | [] => sp
    | c :: _ =>
      if ncLevel ≠ 0 ∧ rs.commentNested.isSome then
        match rs.commentNested with
        | some (b, e, nested) =>
          if listStartsWith sp.future b ∧ nested then
            skipWhitesF rs fuel (ncLevel + 1) (advanceT sp b.length)
          else if listStartsWith sp.future e then
            skipWhitesF rs fuel (ncLevel - 1) (advanceT sp e.length)
          else skipWhitesF rs fuel ncLevel (stepT sp)
        | none => sp
      else
        if c = ' ' ∨ c = '\t' ∨ c = '\n' then
          skipWhitesF rs fuel ncLevel (stepT sp)
        else if (match rs.commentLine with
            | some lc => listStartsWith sp.future lc
            | none => false) then
          skipWhitesF rs fuel ncLevel (skipToNewlineGo sp.future sp)
        else
          match rs.commentNested with
          | some (b, _, _) =>
            if listStartsWith sp.future b then
              skipWhitesF rs fuel (ncLevel + 1) (advanceT sp b.length)
            else sp
          | none => sp

/-- `advance(n)` with the `UnexpectedEOF` throw made explicit: the
returned cursor is where the stepping stopped. -/
def advanceChk (sp : SourcePosition) : Nat → SourcePosition × Option ParseFailure
  | 0 => (sp, none)
  | n + 1 =>
    match sp.future with
    | [] => (sp, some (unexpectedEOF sp.name))
    | _ :: _ => advanceChk (stepT sp) n

/-- Result of the quoted-string loop: the decoded body, a thrown
`ParseFailure`, or a non-`ParseFailure` crash (`RangeError` from the
`char` getter). -/
inductive QuoteRes where
  | doneq (s : List Char) (sp : SourcePosition)
  | failq (e : ParseFailure) (sp : SourcePosition)
  | crashq (msg : String) (sp : SourcePosition)

/-- Loop exit: `advance(stop.length)` (throws `UnexpectedEOF` when the
loop stopped at end of input) and the decoded body is returned. -/
def quotedFinish (q : Quotation) (s : List Char) (sp : SourcePosition) : QuoteRes :=
  match advanceChk sp q.stop.length with
  | (spF, some e) => .failq e spF
  | (spF, none) => .doneq s spF

/-- The tail of each loop iteration, reached also after a recognised
escape (the `switch` falls through to it): the newline check against
`multiline`, then `s += char; advance()`.  Reading `char` at end of
input throws `RangeError`. -/
def quotedContStep (q : Quotation) (s : List Char) (sp : SourcePosition) :
    QuoteRes ⊕ (List Char × SourcePosition) :=
  match sp.future with
  | [] => .inl (.crashq "lexer: getting char while EOF" sp)
  | c :: _ =>
    if c = '\n' ∧ ¬ q.multiline then
      .inl (.failq (.leaf "line break not allowed in this place" sp.name sp.line sp.column) sp)
    else .inr (s ++ [c], stepT sp)

/-- The quoted-string scanner of `Lexer.next` (src/src/lex.ts lines
182-304): while not at the stop sequence, process one character — a
backslash begins an escape (decoded, after which control *falls through*
to the plain-character tail, appending the escape's final character a
second time), any other character is appended.  Fuel bounds the loop;
every iteration consumes at least one character. -/
def quotedLoopF (q : Quotation) : Nat → List Char → SourcePosition → QuoteRes
  | 0, _, sp => .crashq "model: fuel exhausted" sp
  | fuel + 1, s, sp =>
    if sp.future = [] ∨ listStartsWith sp.future q.stop then
      quotedFinish q s sp
    else
      match sp.future with
      | [] => .crashq "unreachable" sp
      | c :: _ =>
        if q.escape ∧ c = '\\' then
          match (stepT sp).future with
          | [] => .failq (unexpectedEOF (stepT sp).name) (stepT sp)
          | c1 :: _ =>
            match escChar c1 with
            | some d =>
              match quotedContStep q (s ++ [d]) (stepT sp) with
              | .inl r => r
              | .inr (s2, sp2) => quotedLoopF q fuel s2 sp2
            | none =>
              if c1 = 'o' ∨ c1 = 'O' then
                match escRunGo isOctal "invalid octal escape character"
                    (stepT sp).future (stepT sp) with
                | (e, spE) => .failq e spE
              else if c1 = 'x' ∨ c1 = 'X' then
                match escRunGo isHexadecimal "invalid hexadecimal escape character"
                    (stepT sp).future (stepT sp) with
                | (e, spE) => .failq e spE
              else if c1 = 'u' ∨ c1 = 'U' then
                match escRunGo isHexadecimal "invalid Unicode-16 escape character"
                    (stepT sp).future (stepT sp) with
                | (e, spE) => .failq e spE
              else if c1 = 'w' ∨ c1 = 'W' then
                match escRunGo isHexadecimal "invalid Unicode-32 escape character"
                    (stepT sp).future (stepT sp) with
                | (e, spE) => .failq e spE
              else if isDigit c1 then
                -- `\d`: reads the current digit, then greedily at most one
                -- more (`for (let i = 1; i < 3; i++)`), then decodes
                match (stepT (stepT sp)).future with
                | [] => .crashq "lexer: getting char while EOF" (stepT (stepT sp))
                | c2 :: _ =>
                  if isDigit c2 then
                    match quotedContStep q
                        (s ++ [Char.ofNat (decValue [c1, c2])])
                        (stepT (stepT (stepT sp))) with
                    | .inl r => r
                    | .inr (s2, sp2) => quotedLoopF q fuel s2 sp2
                  else
                    match quotedContStep q (s ++ [Char.ofNat (decValue [c1])])
                        (stepT (stepT sp)) with
                    | .inl r => r
                    | .inr (s2, sp2) => quotedLoopF q fuel s2 sp2
              else
                .failq (.leaf "invalid escape character" (stepT sp).name
                  (stepT sp).line (stepT sp).column) (stepT sp)
        else
          match quotedContStep q s sp with
          | .inl r => r
          | .inr (s2, sp2) => quotedLoopF q fuel s2 sp2

/-- First registered quote delimiter that prefixes the remaining text
(`for (let quote in this.ruleSet.quotes)` in insertion order). -/
def findQuote (quotes : List (List Char × Quotation)) (rest : List Char) :
    Option (List Char × Quotation) :=
  match quotes with
  | [] => none
  | (k, q) :: qs => if listStartsWith rest k then some (k, q) else findQuote qs rest

/-- `rest.split(' ', 1)[0]`: the text up to the first space. -/
def splitFirstWord (rest : List Char) : List Char :=
  rest.takeWhile (fun c => c ≠ ' ')

/-- `staticGuard.get(word)` (exact key). -/
def staticGet (g : List (List Char × String)) (w : List Char) : Option String :=
  match g with
  | [] => none
  | (k, tk) :: gs => if k = w then some tk else staticGet gs w

/-- The static-rule scan: first key that is a prefix of the remaining
text (`rest.slice(0, key.length) === key`), in insertion order. -/
def staticScan (g : List (List Char × String)) (rest : List Char) :
    Option (List Char × String) :=
  match g with
  | [] => none
  | (k, tk) :: gs => if listStartsWith rest k then some (k, tk) else staticScan gs rest

/-- The dynamic-rule scan: first matcher that matches, yielding `m[0]`. -/
def dynScan (g : List ((List Char → Option (List Char)) × String)) (rest : List Char) :
    Option (List Char × String) :=
  match g with
  | [] => none
  | (pat, tk) :: gs =>
    match pat rest with
    | some lit => some (lit, tk)
    | none => dynScan gs rest

/-- `Lexer.next()` (src/src/lex.ts lines 171-376): skip whitespace and
comments, signal `EOF`, scan a quoted string, otherwise try the static
fast path, the static scan and the dynamic guards, raise
`"invalid token"` when nothing matches, and convert a
`__number_nofollow` token into its `ParseFailure`. -/
def nextRS (rs : RuleSetM) (sp0 : SourcePosition) : LexOutcome :=
  let sp := if rs.skipSpaces then skipWhitesF rs (sp0.future.length + 1) 0 sp0 else sp0
  if sp.future = [] then .eof sp
  else
    match findQuote rs.quotes sp.future with
    | some (k, q) =>
      let startLine := sp.line
      let startColumn := sp.column
      let sp1 := advanceT sp k.length
      match quotedLoopF q (sp1.future.length + 1) [] sp1 with
      | .doneq s spD => .tok ⟨q.tokenType, s, spD.name, startLine, startColumn⟩ spD
      | .failq e spE => .fail e spE
      | .crashq m spC => .crash m spC
    | none =>
      let guess :=
        (match staticGet rs.staticGuard (splitFirstWord sp.future) with
        | some tk =>
          some ((⟨tk, splitFirstWord sp.future, sp.name, sp.line, sp.column⟩ : Token),
            advanceT sp (splitFirstWord sp.future).length)
        | none =>
          match staticScan rs.staticGuard sp.future with
          | some (key, tk) =>
            some ((⟨tk, key, sp.name, sp.line, sp.column⟩ : Token),
              advanceT sp key.length)
          | none =>
            match dynScan rs.dynamicGuard sp.future with
            | some (lit, tk) =>
              some ((⟨tk, lit, sp.name, sp.line, sp.column⟩ : Token),
                advanceT sp lit.length)
            | none => none)
      match guess with
      | none => .fail (.leaf "invalid token" sp.name sp.line sp.column) sp
      | some (t, spA) =>
        if t.type = TK_NUMBER_NOFOLLOW then
          .fail (.leaf ("unexpected '" ++ String.mk t.literal
            ++ "': missing separators between a number and indistinguishable stuff")
            sp.name t.line t.column) spA
        else .tok t spA

/-- The S6 input of the spec: `"a\n\x41B"`. -/
def input7 : List Char :=
  ['"', 'a', '\\', 'n', '\\', 'x', '4', '1', '\\', 'u', '0', '0', '4', '2', '"']

/-- C7 (code behaviour at the failing input): with the double-quote
string preset, lexing `"a\n\x41B"` does *not* produce the token
`a`·LF·`A`·`B` the claim expects: the `\x` digit loop never increments
its counter, so after consuming `41` it reads the following `\` and
throws `ParseFailure "invalid hexadecimal escape character"` at line 1,
column 9.  Moreover even the recognised `\n` escape is decoded wrongly:
the `switch` falls through and appends the literal `n` after the LF, as
the second conjunct shows on the input `"\n"`. -/
theorem lexer_escape_decoding_fails :
    nextRS (stringPresetRuleSet ['"']) (SourcePosition.ofSource input7 "") =
      .fail (.leaf "invalid hexadecimal escape character" "" 1 9)
        ⟨"", ['\\', 'u', '0', '0', '4', '2', '"'], 1, 9⟩
    ∧ nextRS (stringPresetRuleSet ['"'])
        (SourcePosition.ofSource ['"', '\\', 'n', '"'] "") =
      .tok ⟨TK_QUOTED_STRING ++ "\"", [Char.ofNat 10, 'n'], "", 1, 1⟩ ⟨"", [], 1, 5⟩ :=
  ⟨rfl, rfl⟩

end TsParsec
